import Mathlib

/-!
Verification of the word algebra (`fruits/core/wording.py`) and the PPV
feature sieve (`fruits/sieving/implicit.py`) of the `fruits` library.

Python strings are modelled as `List Char`, with `\d` of the word grammar
matching the full Unicode decimal-digit class as Python's `re` does, and
Python floats as `ℚ` (every constant appearing in the verified behaviours is
rational and no rounding is exercised), and Python exceptions as an explicit
error type returned through `Except`.
-/

attribute [local semireducible] Rat.mul Rat.add Rat.sub Rat.inv

/-- Kinds of Python exceptions raised by the modelled code paths. -/
inductive PyErr where
  | valueError
  | indexError
  | typeError
  | runtimeError
deriving DecidableEq, Repr

/-- Python strings, modelled as lists of characters. -/
abbrev PyStr := List Char

/-- The Unicode decimal-digit (category Nd) blocks beyond ASCII: the first
code point of each run of ten consecutive digits `0..9`, as tabulated by
CPython 3.11 (`unicodedata`, Unicode 14.0.0).  Python's `re` module matches
`\d` on a `str` against exactly these characters, and `int()` converts
them; the inventory of non-ASCII blocks tracks the interpreter's Unicode
version, and nothing below depends on it beyond the presence of the ASCII
block and the existence of non-ASCII digits. -/
def ndBlocksRest : List ℕ :=
  [1632, 1776, 1984, 2406, 2534, 2662, 2790, 2918, 3046, 3174, 3302, 3430,
   3558, 3664, 3792, 3872, 4160, 4240, 6112, 6160, 6470, 6608, 6784, 6800,
   6992, 7088, 7232, 7248, 42528, 43216, 43264, 43472, 43504, 43600, 44016,
   65296, 66720, 68912, 69734, 69872, 69942, 70096, 70384, 70736, 70864,
   71248, 71360, 71472, 71904, 72016, 72784, 73040, 73120, 92768, 92864,
   93008, 120782, 120792, 120802, 120812, 120822, 123200, 123632, 125264,
   130032]

/-- All Unicode decimal-digit blocks: ASCII `0`-`9` (code point 48) first,
then the non-ASCII blocks. -/
def ndBlocks : List ℕ := 48 :: ndBlocksRest

/-- `\d` of the regular expression on a Python 3 `str`: any Unicode decimal
digit (category Nd), not only ASCII `0`-`9`. -/
def isDig (c : Char) : Bool :=
  ndBlocks.any (fun b => decide (b ≤ c.toNat ∧ c.toNat < b + 10))

/-- Looks up the digit value of code point `n`: its offset inside the first
block of `bs` containing it (each Nd block is a run `0..9`). -/
def digValAux : List ℕ → ℕ → ℕ
  | [], _ => 0
  | b :: bs, n => if b ≤ n ∧ n < b + 10 then n - b else digValAux bs n

/-- Numeric value of a digit character, i.e. Python `int(letter)` for a
single-character string: the character's offset inside its decimal-digit
block (the code only applies this to characters matched by `\d`). -/
def digVal (c : Char) : ℕ := digValAux ndBlocks c.toNat

/-- An ASCII decimal digit `0`-`9` — the digit class `[0-9]` of the claim's
grammar, a strict subset of Python's `\d`. -/
def isAsciiDig (c : Char) : Bool := '0' ≤ c && c ≤ '9'

/-- Two-state matcher for `re.fullmatch(r"(\[\d+\])+", s)`.  In mode `true`
a `[` and at least one digit have been consumed: more digits may follow,
then `]` switches to mode `false`.  In mode `false` a complete group has
just ended: the string may stop or open another group. -/
def matchMode : Bool → PyStr → Bool
  | true, [] => false
  | true, c :: rest =>
    if isDig c then matchMode true rest
    else if c = ']' then matchMode false rest
    else false
  | false, [] => true
  | false, '[' :: c :: rest => isDig c && matchMode true rest
  | false, _ => false

/-- `re.fullmatch(r"(\[\d+\])+", s)` as a Boolean: at least one bracket
group, each holding one or more decimal digits, covering the whole string
(`fruits/core/wording.py`, `SimpleWord.multiply`). -/
def fullmatchWord : PyStr → Bool
  | '[' :: c :: rest => isDig c && matchMode true rest
  | _ => false

/-- Python `s.split("]")`: the fragments of `s` between `]` characters,
including the empty fragment after a trailing `]`. -/
def splitRB : PyStr → List PyStr
  | [] => [[]]
  | c :: rest =>
    if c = ']' then [] :: splitRB rest
    else
      match splitRB rest with
      | [] => [[c]]
      | p :: ps => (c :: p) :: ps

/-- The raw extended-letter strings of `SimpleWord.multiply`:
`[x[1:] for x in string.split("]")][:-1]`. -/
def elsRaw (s : PyStr) : List PyStr :=
  ((splitRB s).dropLast).map (fun x => x.drop 1)

/-- Python `max` folded over a list, with `0` for the empty list (the code
only applies it to nonempty digit lists, guarded by the regex check). -/
def maxOfList (l : List ℕ) : ℕ := l.foldl Nat.max 0

/-- The value `max_dim` computed by `SimpleWord.multiply` for an input
string: the largest digit referenced anywhere in the string. -/
def strMaxDim (s : PyStr) : ℕ :=
  maxOfList (((elsRaw s).flatten).map digVal)

/-- Python list-element assignment `l[i] = v` with signed-index semantics:
a negative index counts from the end, and an out-of-range index raises
`IndexError` (modelled as `none`). -/
def pySet (l : List ℕ) (i : Int) (v : ℕ) : Option (List ℕ) :=
  let j : Int := if i < 0 then i + l.length else i
  if 0 ≤ j ∧ j < l.length then some (l.set j.toNat v) else none

/-- The elements of `l` that are not in `seen`, keeping one copy each in
order of first occurrence. -/
def firstDistinctAux {α : Type} [DecidableEq α] (seen : List α) :
    List α → List α
  | [] => []
  | c :: rest =>
    if c ∈ seen then firstDistinctAux seen rest
    else c :: firstDistinctAux (c :: seen) rest

/-- The distinct characters of a string in order of first occurrence.  This
models the iteration over `set(l for l in el_raw)` in `SimpleWord.multiply`;
CPython's set order is unspecified, but every behaviour verified below is
order-independent (the assignments target pairwise distinct indices except
when the digit `0` appears, where any order yields the recorded outcome). -/
def firstDistinct (s : PyStr) : PyStr := firstDistinctAux [] s

/-- Builds one stored extended letter from a raw digit string `raw`:
`el = [0]*max_dim`, then `el[int(letter)-1] = el_raw.count(letter)` for each
distinct digit (`SimpleWord.multiply`).  `none` models the `IndexError`
raised when a digit of value `0` occurs in a group whose `max_dim` is
`0`. -/
def mkEl (maxd : ℕ) (raw : PyStr) : Option (List ℕ) :=
  (firstDistinct raw).foldlM
    (fun el c => pySet el ((digVal c : Int) - 1) (raw.count c))
    (List.replicate maxd 0)

/-- The `alpha` attribute of a `Word`: either a single scalar (the default
`0.0`) or an explicit per-gap list. -/
inductive AlphaV where
  | scalar (q : ℚ)
  | list (l : List ℚ)
deriving DecidableEq, Repr

/-- State of a `fruits.core.wording.SimpleWord`: its `name`, the stored
exponent vectors `_extended_letters`, `_max_dim`, and the inherited
`_alpha`. -/
structure SimpleWordS where
  name : PyStr
  els : List (List ℕ)
  maxDim : ℕ
  alpha : AlphaV
deriving DecidableEq, Repr

/-- `SimpleWord.multiply(string)`: rejects strings not matching
`(\[\d+\])+` with a `ValueError`, appends `string` to the name, pads the
stored letters when the new maximum dimension exceeds `_max_dim`, and
appends one exponent vector per bracket group. -/
def multiplyS (w : SimpleWordS) (s : PyStr) : Except PyErr SimpleWordS :=
  if fullmatchWord s then
    let name := w.name ++ s
    let raws := elsRaw s
    let maxd := strMaxDim s
    let els0 :=
      if maxd > w.maxDim then
        w.els.map (fun el => el ++ List.replicate (maxd - w.maxDim) 0)
      else w.els
    let maxDim' := if maxd > w.maxDim then maxd else w.maxDim
    match raws.mapM (mkEl maxd) with
    | none => .error .indexError
    | some newEls =>
      .ok { name := name, els := els0 ++ newEls, maxDim := maxDim',
            alpha := w.alpha }
  else .error .valueError

/-- `SimpleWord.__init__(string)`: a fresh word (empty name, no letters,
`_max_dim = 0`, `_alpha = 0.0`) multiplied by `string`. -/
def simpleWordInit (s : PyStr) : Except PyErr SimpleWordS :=
  multiplyS { name := [], els := [], maxDim := 0, alpha := .scalar 0 } s

/-- `SimpleWord.__eq__`: structural equality of the stored exponent-vector
sequences (both operands being SimpleWords; a non-SimpleWord operand raises
`TypeError`, which the typed model excludes). -/
def simpleWordEq (a b : SimpleWordS) : Bool := a.els == b.els

/-- The `alpha` property getter of `Word`: a scalar is expanded to one copy
per gap between consecutive extended letters. -/
def getAlpha (w : SimpleWordS) : List ℚ :=
  match w.alpha with
  | .scalar q => List.replicate (w.els.length - 1) q
  | .list l => l

/-- The `alpha` property setter of `Word`: a list must have length
`len(word) - 1`; a scalar is always accepted. -/
def setAlpha (w : SimpleWordS) (a : AlphaV) : Except PyErr SimpleWordS :=
  match a with
  | .list l =>
    if l.length ≠ w.els.length - 1 then .error .valueError
    else .ok { w with alpha := a }
  | .scalar _ => .ok { w with alpha := a }

/-- `SimpleWord.copy`: rebuilds a word from `self.name` (re-parsing it) and
then overwrites its letter list with copies of the original's letters.  The
rebuilt word keeps the freshly-initialised `_alpha = 0.0`. -/
def copyS (w : SimpleWordS) : Except PyErr SimpleWordS := do
  let sw ← simpleWordInit w.name
  return { sw with els := w.els }

/-- An extended letter of a generic `Word`, modelled from the spec:
`fruits/core/letters.py` is not part of the sources, and the spec describes
an `ExtendedLetter` as an unordered multiset of (dimension, exponent)
pairs. -/
abbrev ELetter := Multiset (ℕ × ℕ)

/-- State of a generic (non-Simple) `fruits.core.wording.Word`. -/
structure WordB where
  name : PyStr
  els : List ELetter
  alpha : AlphaV

/-- `Word.__eq__` for the base class: literally `return False`
(`fruits/core/wording.py`, lines 138-139). -/
def wordEq (_w1 _w2 : WordB) : Bool := false

/-- The `quantile` argument of `PPV.__init__`: a single float or a list. -/
inductive QArg where
  | single (q : ℚ)
  | list (qs : List ℚ)
deriving DecidableEq, Repr

/-- The `constant` argument of `PPV.__init__`: a single bool or a list. -/
inductive CArg where
  | single (b : Bool)
  | list (bs : List Bool)
deriving DecidableEq, Repr

/-- The distinct elements of a list in order of first occurrence, modelling
`list(set(quantile))`.  CPython's set order is unspecified; in the verified
configurations the paired `constant` flags are all equal and the pairs are
subsequently sorted by quantile, so the order does not affect the result. -/
def firstDistinctQ (l : List ℚ) : List ℚ := firstDistinctAux [] l

/-- Stable insertion into a quantile-sorted list of (quantile, constant)
pairs, modelling Python's stable `sorted(..., key=lambda x: x[0])`. -/
def insSorted (x : ℚ × Bool) : List (ℚ × Bool) → List (ℚ × Bool)
  | [] => [x]
  | y :: ys => if x.1 ≤ y.1 then x :: y :: ys else y :: insSorted x ys

/-- `sorted(pairs, key=lambda x: x[0])`. -/
def sortByFst : List (ℚ × Bool) → List (ℚ × Bool)
  | [] => []
  | x :: xs => insSorted x (sortByFst xs)

/-- State of a `fruits.sieving.implicit.PPV` sieve: the `(quantile,
constant)` pairs `_q_c_input`, the fitted thresholds `_q` (None before
`fit`), `_sample_size` and `_segments`. -/
structure PPVState where
  q_c_input : List (ℚ × Bool)
  q : Option (List ℚ)
  sample_size : ℚ
  segments : Bool
deriving DecidableEq, Repr

/-- `PPV.__init__(quantile, constant, sample_size, segments)`, with every
`ValueError` check in source order: list/constant length pairing, the
`[0, 1]` range check for non-constant quantiles, deduplication and stable
sorting of the pairs when `segments` is set, the `sample_size` range check,
and the `segments`-with-a-single-quantile check (which tests
`len(quantile) == 1`, not `len(quantile) < 2`). -/
def ppvInit (quantile : QArg) (constant : CArg) (sample_size : ℚ)
    (segments : Bool) : Except PyErr PPVState := do
  let (qs, cs) ←
    match quantile with
    | .list qs => do
      let cs ←
        match constant with
        | .single b => pure (List.replicate qs.length b)
        | .list bs =>
          if qs.length ≠ bs.length then Except.error PyErr.valueError
          else pure bs
      if (qs.zip cs).any (fun p => ¬p.2 ∧ ¬(0 ≤ p.1 ∧ p.1 ≤ 1)) then
        Except.error PyErr.valueError
      else
        pure (qs, cs)
    | .single q0 => do
      let cs ←
        match constant with
        | .list bs =>
          if bs.length > 1 then Except.error PyErr.valueError
          else pure bs
        | .single b => pure [b]
      pure ([q0], cs)
  let q_c :=
    if segments then sortByFst ((firstDistinctQ qs).zip cs)
    else qs.zip cs
  if ¬(0 < sample_size ∧ sample_size ≤ 1) then
    Except.error PyErr.valueError
  else if segments ∧ qs.length = 1 then
    Except.error PyErr.valueError
  else
    return { q_c_input := q_c, q := none, sample_size := sample_size,
             segments := segments }

/-- `PPV.nfeatures()`: `len(self._q_c_input) - 1` when `segments` else
`len(self._q_c_input)`; an `Int` because Python's subtraction can reach
`-1`. -/
def ppvNFeatures (st : PPVState) : Int :=
  if st.segments then (st.q_c_input.length : Int) - 1
  else (st.q_c_input.length : Int)

/-- `PPV.fit(X)`: stores one threshold per configured pair, the quantile
value itself when `constant`, otherwise an empirical quantile of a random
sub-sample of `X`.  The composition of `np.random.choice` and `np.quantile`
(source lines 103-112) is abstracted as the `oracle` argument, mapping the
pair's index and probability to the estimated quantile; every verified
configuration is fully constant, so the oracle is never consulted there. -/
def ppvFit (st : PPVState) (oracle : ℕ → ℚ → ℚ) : PPVState :=
  { st with
    q := some ((st.q_c_input.enum).map
      (fun p => if p.2.2 then p.2.1 else oracle p.1 p.2.1)) }

/-- Result of `PPV.sieve`: a 1-D array (when `nfeatures() == 1`) or a 2-D
array. -/
inductive PPVOut where
  | one (v : List ℚ)
  | two (m : List (List ℚ))
deriving DecidableEq, Repr

/-- `PPV.sieve(X)` for a 2-D input with `ncols = X.shape[1]`: raises
`RuntimeError` before `fit`; raises `ValueError` when
`np.zeros((n, nfeatures()))` is given a negative feature count; otherwise
computes, per row, either the bucket proportions
`sum(q[j-1] <= x < q[j]) / ncols` (`segments`) or the threshold proportions
`sum(x >= q[j]) / ncols`, and flattens the result to 1-D when
`nfeatures() == 1`. -/
def ppvSieve (st : PPVState) (X : List (List ℚ)) (ncols : ℕ) :
    Except PyErr PPVOut :=
  match st.q with
  | none => .error .runtimeError
  | some qs =>
    let nf := ppvNFeatures st
    if nf < 0 then .error .valueError
    else
      let rows := X.map (fun x =>
        if st.segments then
          (List.range (qs.length - 1)).map (fun j =>
            ((x.countP (fun v => qs.getD j 0 ≤ v ∧ v < qs.getD (j + 1) 0)
              : ℕ) : ℚ) / (ncols : ℚ))
        else
          qs.map (fun q => ((x.countP (fun v => q ≤ v) : ℕ) : ℚ)
            / (ncols : ℚ)))
      if nf = 1 then .ok (.one (rows.map (fun r => r.getD 0 0)))
      else .ok (.two rows)

/-- Spec-side recursive-descent reader for the claim's ASCII grammar
`(\[[0-9]+\])+`, written from the spec's words, to be compared with the
source's `re.fullmatch`/`split`-based parsing (whose `\d` is the wider
Unicode digit class).  In mode `true` it is inside a group after `[` and
its first digit and returns the remaining digits of the current group
together with the following groups; in mode `false` it is between groups
and the first component is empty. -/
def specMode : Bool → PyStr → Option (PyStr × List PyStr)
  | true, [] => none
  | true, c :: rest =>
    if isAsciiDig c then (specMode true rest).map (fun p => (c :: p.1, p.2))
    else if c = ']' then (specMode false rest).map (fun p => ([], p.2))
    else none
  | false, [] => some ([], [])
  | false, c :: rest =>
    if c = '[' then
      match rest with
      | [] => none
      | c2 :: rest2 =>
        if isAsciiDig c2 then
          (specMode true rest2).map (fun p => ([], (c2 :: p.1) :: p.2))
        else none
    else none

/-- Spec-side decomposition of a word string into its bracket groups
(`some` exactly on strings of one or more `[digits]` groups over the
claim's ASCII digit class `[0-9]`). -/
def specGroups : PyStr → Option (List PyStr)
  | [] => none
  | c :: rest =>
    if c = '[' then
      match rest with
      | [] => none
      | c2 :: rest2 =>
        if isAsciiDig c2 then
          (specMode true rest2).map (fun p => (c2 :: p.1) :: p.2)
        else none
    else none

/-- Spec-side extended letter for a digit group: position `d - 1` holds the
number of occurrences of digit `d` in the group ("each decimal digit `d` in
a group contributes one to the exponent of dimension `d`"). -/
def specEl (maxd : ℕ) (g : PyStr) : List ℕ :=
  (List.range maxd).map (fun i => g.countP (fun c => digVal c = i + 1))

/-- Spec-side reading of `SimpleWord(s)` for a string with groups `gs`: one
extended letter per bracket group, sized to the largest referenced digit. -/
def specWord (s : PyStr) (gs : List PyStr) : SimpleWordS :=
  let maxd := maxOfList ((gs.flatten).map digVal)
  { name := s, els := gs.map (specEl maxd), maxDim := maxd,
    alpha := .scalar 0 }

/-- Zero-pads every exponent vector of a letter list to the common maximal
length, recovering the denoted exponents independently of raggedness. -/
def padEls (els : List (List ℕ)) : List (List ℕ) :=
  let m := maxOfList (els.map List.length)
  els.map (fun el => el ++ List.replicate (m - el.length) 0)

/-- Shape observer for a `PPV.sieve` result: the length of a 1-D result, or
the row count and row lengths of a 2-D result. -/
def sieveShape : Except PyErr PPVOut → Option (Sum ℕ (ℕ × List ℕ))
  | .ok (.one v) => some (Sum.inl v.length)
  | .ok (.two m) => some (Sum.inr (m.length, m.map List.length))
  | .error _ => none

/- Concrete fixtures used by the claim theorems and witnesses. -/

/-- The string `"[12][122]"`. -/
def str12_122 : PyStr := ['[', '1', '2', ']', '[', '1', '2', '2', ']']

/-- The string `"[21][212]"`. -/
def str21_212 : PyStr := ['[', '2', '1', ']', '[', '2', '1', '2', ']']

/-- The string `"[12]"`. -/
def strA : PyStr := ['[', '1', '2', ']']

/-- The string `"[1]"`. -/
def strB : PyStr := ['[', '1', ']']

/-- The string `"[123]"`. -/
def str123 : PyStr := ['[', '1', '2', '3', ']']

/-- The string `"[0]"`: it matches `(\[\d+\])+` although the referenced
dimension is `0`. -/
def str0 : PyStr := ['[', '0', ']']

/-- The string `"[\u0661]"`: its digit is U+0661 ARABIC-INDIC DIGIT ONE, a
Unicode decimal digit matched by Python's `\d` (and converted by `int()`)
although it is outside the claim's ASCII class `[0-9]`. -/
def strU : PyStr := ['[', '\u0661', ']']

/-- The string `"[11][12]"`. -/
def str11_12 : PyStr := ['[', '1', '1', ']', '[', '1', '2', ']']

/-- A string rejected by the word grammar. -/
def strBad : PyStr := ['1', '2', ']']

/-- `SimpleWord("[12][122]")`. -/
def wEx1 : SimpleWordS :=
  { name := str12_122, els := [[1, 1], [1, 2]], maxDim := 2,
    alpha := .scalar 0 }

/-- `SimpleWord("[21][212]")`. -/
def wEx2 : SimpleWordS :=
  { name := str21_212, els := [[1, 1], [1, 2]], maxDim := 2,
    alpha := .scalar 0 }

/-- `SimpleWord("[11][12]")`. -/
def wC3a : SimpleWordS :=
  { name := str11_12, els := [[2, 0], [1, 1]], maxDim := 2,
    alpha := .scalar 0 }

/-- `SimpleWord("[11][12]")` after `word.alpha = 0.5`. -/
def wC3b : SimpleWordS := { wC3a with alpha := .scalar (1/2) }

/-- The result of `wC3b.copy()`: same name and letters, `_alpha` back at
the freshly-initialised `0.0`. -/
def wC3c : SimpleWordS := wC3a

/-- `SimpleWord("[12]")`. -/
def waEx : SimpleWordS :=
  { name := strA, els := [[1, 1]], maxDim := 2, alpha := .scalar 0 }

/-- `SimpleWord("[12]")` after `.multiply("[1]")`: the appended letter is
sized by `"[1]"` alone, leaving a ragged letter list. -/
def wabEx : SimpleWordS :=
  { name := strA ++ strB, els := [[1, 1], [1]], maxDim := 2,
    alpha := .scalar 0 }

/-- `SimpleWord("[12][1]")`: both letters sized to the whole string's
maximal dimension. -/
def wcatEx : SimpleWordS :=
  { name := strA ++ strB, els := [[1, 1], [1, 0]], maxDim := 2,
    alpha := .scalar 0 }

/-- `wabEx` after `.multiply("[123]")`: the ragged stored letter `[1]` is
padded by `3 - 2 = 1` zero only, to length `2`, not to the new dimension
count `3`. -/
def wpadEx : SimpleWordS :=
  { name := (strA ++ strB) ++ str123, els := [[1, 1, 0], [1, 0], [1, 1, 1]],
    maxDim := 3, alpha := .scalar 0 }

/-- `SimpleWord("[12]")` after `.multiply("[123]")`. -/
def wgrowEx : SimpleWordS :=
  { name := strA ++ str123, els := [[1, 1, 0], [1, 1, 1]], maxDim := 3,
    alpha := .scalar 0 }

/-- A trivial stand-in for the abstracted quantile-estimation oracle; the
configurations it is used with are fully `constant`, so it is never
consulted. -/
def oracle0 : ℕ → ℚ → ℚ := fun _ q => q

/-- `PPV(quantile=0, constant=True, sample_size=1, segments=False)`. -/
def stPPV1 : PPVState :=
  { q_c_input := [(0, true)], q := none, sample_size := 1, segments := false }

/-- `PPV(quantile=[-5, 0, 2], constant=True, sample_size=1,
segments=True)`. -/
def stPPV3 : PPVState :=
  { q_c_input := [(-5, true), (0, true), (2, true)], q := none,
    sample_size := 1, segments := true }

deriving instance DecidableEq for Except

/-- `stPPV1` after `fit` (the single quantile is constant, so the stored
threshold is the value `0` itself). -/
def stPPV1f : PPVState :=
  { q_c_input := [(0, true)], q := some [0], sample_size := 1,
    segments := false }

/-- `stPPV3` after `fit` (all three quantiles are constant). -/
def stPPV3f : PPVState :=
  { q_c_input := [(-5, true), (0, true), (2, true)], q := some [-5, 0, 2],
    sample_size := 1, segments := true }

/-- C2: `SimpleWord("[12][122]") == SimpleWord("[21][212]")` holds, and
SimpleWord equality is reflexive, symmetric, and determined purely by the
parsed exponent-vector sequence, independent of the original string
spelling. -/
theorem claim2_simpleword_equality :
    (simpleWordInit str12_122 = .ok wEx1 ∧
      simpleWordInit str21_212 = .ok wEx2 ∧
      simpleWordEq wEx1 wEx2 = true) ∧
    (∀ w : SimpleWordS, simpleWordEq w w = true) ∧
    (∀ v w : SimpleWordS, simpleWordEq v w = simpleWordEq w v) ∧
    (∀ v w : SimpleWordS, simpleWordEq v w = true ↔ v.els = w.els) := by
  refine ⟨by decide, fun w => by simp [simpleWordEq], fun v w => ?_,
    fun v w => by simp [simpleWordEq]⟩
  by_cases h : v.els = w.els
  · simp [simpleWordEq, h]
  · simp [simpleWordEq, h, Ne.symm h]

/-- C8: base-class `Word` equality is constantly false, including between a
word and itself. -/
theorem claim8_base_word_eq_false :
    (∀ w1 w2 : WordB, wordEq w1 w2 = false) ∧
    (∀ w : WordB, wordEq w w = false) :=
  ⟨fun _ _ => rfl, fun _ => rfl⟩

/-- C1 (counterexample): the claimed value `4/5` for the series
`[5, 8, 2, 6, 0]` is wrong — the fitted PPV sieve with constant quantile
`0` returns `1` there (all five values are `≥ 0`). -/
theorem claim1_counterexample :
    ppvInit (.single 0) (.single true) 1 false = .ok stPPV1 ∧
    ppvFit stPPV1 oracle0 = stPPV1f ∧
    ppvSieve stPPV1f [[5, 8, 2, 6, 0]] 5 = .ok (.one [1]) ∧
    PPVOut.one [(1 : ℚ)] ≠ PPVOut.one [4/5] := by decide

/-- C1 (amended): PPV with `segments=False`, single quantile `q=0`,
`constant=True`, after fit, yields `3/5` on `[-4, 0.8, 0, 5, -3]` and
`5/5 = 1` on `[5, 8, 2, 6, 0]`. -/
theorem claim1_ppv_q0_proportions :
    ppvInit (.single 0) (.single true) 1 false = .ok stPPV1 ∧
    (∀ oracle, ppvFit stPPV1 oracle = stPPV1f) ∧
    ppvSieve stPPV1f [[-4, 4/5, 0, 5, -3]] 5 = .ok (.one [3/5]) ∧
    ppvSieve stPPV1f [[5, 8, 2, 6, 0]] 5 = .ok (.one [1]) :=
  ⟨by decide, fun _ => rfl, by decide, by decide⟩

/-- C6: `segments=True` with fewer than two quantiles — the constructor
rejects a single float and a one-element list, but accepts the empty list,
although its own error message demands a list of length `>= 2` (the guard
tests `len(quantile) == 1` instead of `< 2`). -/
theorem claim6_segments_quantile_guard :
    ppvInit (.list []) (.single true) 1 true =
      .ok { q_c_input := [], q := none, sample_size := 1,
            segments := true } ∧
    ppvInit (.single (1/2)) (.single true) 1 true = .error .valueError ∧
    ppvInit (.list [1/2]) (.single true) 1 true = .error .valueError := by
  decide

/-- C7: PPV with quantiles `[-5, 0, 2]` in any order, `constant=True`,
`segments=True`, after fit, maps `[5, 8, 2, 6, 0]` to the bucket features
`[0, 1/5]` for the intervals `[-5, 0)` and `[0, 2)` over length 5. -/
theorem claim7_ppv_segment_buckets :
    ppvInit (.list [-5, 0, 2]) (.single true) 1 true = .ok stPPV3 ∧
    ppvInit (.list [-5, 2, 0]) (.single true) 1 true = .ok stPPV3 ∧
    ppvInit (.list [0, -5, 2]) (.single true) 1 true = .ok stPPV3 ∧
    ppvInit (.list [0, 2, -5]) (.single true) 1 true = .ok stPPV3 ∧
    ppvInit (.list [2, -5, 0]) (.single true) 1 true = .ok stPPV3 ∧
    ppvInit (.list [2, 0, -5]) (.single true) 1 true = .ok stPPV3 ∧
    (∀ oracle, ppvFit stPPV3 oracle = stPPV3f) ∧
    ppvSieve stPPV3f [[5, 8, 2, 6, 0]] 5 = .ok (.two [[0, 1/5]]) :=
  ⟨by decide, by decide, by decide, by decide, by decide, by decide,
    fun _ => rfl, by decide⟩

/-- C3: `copy()` preserves the extended-letter sequence and the name but
silently resets `_alpha` to the default `0.0` — `Word.copy` and
`SimpleWord.copy` rebuild the word without transferring `_alpha`, so a copy
of a word whose alpha was set to `0.5` disagrees with the original. -/
theorem claim3_copy_drops_alpha :
    simpleWordInit str11_12 = .ok wC3a ∧
    setAlpha wC3a (.scalar (1/2)) = .ok wC3b ∧
    copyS wC3b = .ok wC3c ∧
    wC3c.els = wC3b.els ∧ wC3c.name = wC3b.name ∧
    getAlpha wC3b = [1/2] ∧ getAlpha wC3c = [0] ∧
    getAlpha wC3c ≠ getAlpha wC3b := by decide

/-- Python list assignment preserves the list length. -/
theorem pySet_length {l l' : List ℕ} {i : Int} {v : ℕ}
    (h : pySet l i v = some l') : l'.length = l.length := by
  simp only [pySet] at h
  by_cases h0 : i < 0
  · simp only [if_pos h0] at h
    split at h
    · exact (Option.some.inj h) ▸ List.length_set ..
    · cases h
  · simp only [if_neg h0] at h
    split at h
    · exact (Option.some.inj h) ▸ List.length_set ..
    · cases h

/-- The assignment loop of `SimpleWord.multiply` preserves the length of
the exponent vector it fills. -/
theorem foldlM_pySet_len (raw : PyStr) :
    ∀ (ds : PyStr) (init out : List ℕ),
      ds.foldlM (fun el c => pySet el ((digVal c : Int) - 1) (raw.count c))
        init = some out → out.length = init.length := by
  intro ds
  induction ds with
  | nil => intro init out h; cases h; rfl
  | cons c ds ih =>
    intro init out h
    simp only [List.foldlM_cons] at h
    cases hc : pySet init ((digVal c : Int) - 1) (raw.count c) with
    | none => rw [hc] at h; cases h
    | some mid =>
      rw [hc] at h
      exact (ih mid out h).trans (pySet_length hc)

/-- A successfully built extended letter has exactly `max_dim` entries. -/
theorem mkEl_length {maxd : ℕ} {raw : PyStr} {el : List ℕ}
    (h : mkEl maxd raw = some el) : el.length = maxd := by
  have := foldlM_pySet_len raw (firstDistinct raw) (List.replicate maxd 0) el h
  simpa using this

/-- Every letter produced by one `multiply` call has exactly `max_dim`
entries. -/
theorem mapM_mkEl_len (maxd : ℕ) :
    ∀ (raws : List PyStr) (newEls : List (List ℕ)),
      raws.mapM (mkEl maxd) = some newEls →
      ∀ el ∈ newEls, el.length = maxd := by
  intro raws
  induction raws with
  | nil => intro newEls h el hel; cases h; cases hel
  | cons r raws ih =>
    intro newEls h el hel
    simp only [List.mapM_cons] at h
    cases hr : mkEl maxd r with
    | none => rw [hr] at h; cases h
    | some e =>
      rw [hr] at h
      cases hm : raws.mapM (mkEl maxd) with
      | none => rw [hm] at h; cases h
      | some es =>
        rw [hm] at h
        have hx : newEls = e :: es := (Option.some.inj h).symm
        subst hx
        simp only [List.mem_cons] at hel
        rcases hel with rfl | hel
        · exact mkEl_length hr
        · exact ih es hm el hel

/-- Shape of a successful `SimpleWord.multiply`: the letter list is the
(possibly padded) old list followed by the newly built letters. -/
theorem multiplyS_ok_els {w : SimpleWordS} {s : PyStr} {w' : SimpleWordS}
    (h : multiplyS w s = .ok w') :
    ∃ newEls, (elsRaw s).mapM (mkEl (strMaxDim s)) = some newEls ∧
      w'.els = (if strMaxDim s > w.maxDim then
          w.els.map (fun el => el ++ List.replicate (strMaxDim s - w.maxDim) 0)
        else w.els) ++ newEls := by
  simp only [multiplyS] at h
  split at h
  · split at h
    · cases h
    · next newEls hm =>
      cases h
      exact ⟨newEls, hm, rfl⟩
  · cases h

/-- C5 (amended): when the new string's maximum dimension strictly exceeds
the word's previous maximum, every already-stored letter is padded with
exactly `new max - old max` trailing zeros, keeping every existing exponent
at its index; the padded letter reaches the new dimension count exactly
when its length equalled the old maximum (which ragged words built through
`multiply` can violate). -/
theorem claim5_padding :
    ∀ (w : SimpleWordS) (s : PyStr) (w' : SimpleWordS),
      multiplyS w s = .ok w' → w.maxDim < strMaxDim s →
      w'.els.take w.els.length =
        w.els.map (fun el => el ++ List.replicate (strMaxDim s - w.maxDim) 0) := by
  intro w s w' h hgt
  obtain ⟨newEls, _, hels⟩ := multiplyS_ok_els h
  rw [hels, if_pos hgt]
  exact List.take_left' (List.length_map _ _)

/-- Witness for C5: growing `SimpleWord("[12]")` by `"[123]"` pads its
letter `[1, 1]` to `[1, 1, 0]`. -/
theorem claim5_witness :
    wgrowEx.els.take waEx.els.length =
      waEx.els.map
        (fun el => el ++ List.replicate (strMaxDim str123 - waEx.maxDim) 0) :=
  claim5_padding waEx str123 wgrowEx (by decide) (by decide)

/-- Counterexample for C5 as stated: the ragged word
`SimpleWord("[12]").multiply("[1]")` has stored letters `[[1,1],[1]]`;
growing it by `"[123]"` pads the letter `[1]` only to `[1, 0]` of length 2,
not "up to the new dimension count" 3. -/
theorem claim5_counterexample :
    multiplyS wabEx str123 = .ok wpadEx ∧
    wabEx.maxDim = 2 ∧ strMaxDim str123 = 3 ∧
    wpadEx.els.getD 1 [] = [1, 0] ∧
    (wpadEx.els.getD 1 []).length ≠ 3 := by decide

/-- C9: `multiply` sizes each newly appended exponent vector by the new
string alone, pads existing letters only on strict dimension growth, and
consequently `SimpleWord("[12]").multiply("[1]")` is structurally unequal
to `SimpleWord("[12][1]")` although both have the same name and denote the
same exponents (equal after zero-padding normalisation). -/
theorem claim9_multiply_sizing_vs_concat :
    (∀ (w : SimpleWordS) (s : PyStr) (w' : SimpleWordS),
        multiplyS w s = .ok w' →
        ((w'.els.drop w.els.length).all
          (fun el => el.length == strMaxDim s)) = true) ∧
    (∀ (w : SimpleWordS) (s : PyStr) (w' : SimpleWordS),
        multiplyS w s = .ok w' → strMaxDim s ≤ w.maxDim →
        w'.els.take w.els.length = w.els) ∧
    (simpleWordInit strA = .ok waEx ∧
      multiplyS waEx strB = .ok wabEx ∧
      simpleWordInit (strA ++ strB) = .ok wcatEx ∧
      wabEx.name = wcatEx.name ∧
      simpleWordEq wabEx wcatEx = false ∧
      padEls wabEx.els = padEls wcatEx.els) := by
  refine ⟨?_, ?_, by decide⟩
  · intro w s w' h
    obtain ⟨newEls, hm, hels⟩ := multiplyS_ok_els h
    have hlen : (if strMaxDim s > w.maxDim then
        w.els.map (fun el => el ++ List.replicate (strMaxDim s - w.maxDim) 0)
      else w.els).length = w.els.length := by
      split <;> simp
    rw [hels, List.drop_left' hlen, List.all_eq_true]
    intro el hel
    exact beq_iff_eq.mpr (mapM_mkEl_len (strMaxDim s) (elsRaw s) newEls hm el hel)
  · intro w s w' h hle
    obtain ⟨newEls, _, hels⟩ := multiplyS_ok_els h
    rw [hels, if_neg (Nat.not_lt.mpr hle)]
    exact List.take_left ..

/-- Witness for C9: `SimpleWord("[12]").multiply("[1]")` appends a letter
of length 1 (sized by `"[1]"` alone) and leaves `[1, 1]` unpadded. -/
theorem claim9_witness :
    ((wabEx.els.drop waEx.els.length).all
      (fun el => el.length == strMaxDim strB)) = true ∧
    wabEx.els.take waEx.els.length = waEx.els :=
  ⟨claim9_multiply_sizing_vs_concat.1 waEx strB wabEx (by decide),
   claim9_multiply_sizing_vs_concat.2.1 waEx strB wabEx (by decide) (by decide)⟩

/-- Shape of `PPV.sieve` on any state whose fitted threshold list matches
the configured pair list in length: one feature flattens to a 1-D result of
one entry per input row; more than one feature yields a row-major matrix
with `nfeatures()` entries per row. -/
theorem ppvSieve_shape (st : PPVState) (qs : List ℚ) (X : List (List ℚ))
    (m : ℕ) (hq : st.q = some qs)
    (hlen : qs.length = st.q_c_input.length) :
    (ppvNFeatures st = 1 →
      sieveShape (ppvSieve st X m) = some (Sum.inl X.length)) ∧
    (1 < ppvNFeatures st →
      sieveShape (ppvSieve st X m) =
        some (Sum.inr (X.length,
          List.replicate X.length (ppvNFeatures st).toNat))) := by
  constructor
  · intro h1
    simp only [ppvSieve, hq]
    rw [if_neg (by omega), if_pos h1]
    simp [sieveShape]
  · intro h2
    simp only [ppvSieve, hq]
    rw [if_neg (by omega), if_neg (by omega)]
    simp only [sieveShape, Option.some.injEq, Sum.inr.injEq, List.length_map,
      List.map_map]
    by_cases hseg : st.segments
    · have hnf : (ppvNFeatures st).toNat = qs.length - 1 := by
        simp only [ppvNFeatures, if_pos hseg]
        omega
      rw [hnf]
      have : ∀ x ∈ X, (List.length ∘ fun x : List ℚ =>
          if st.segments then
            (List.range (qs.length - 1)).map (fun j =>
              ((x.countP (fun v => qs.getD j 0 ≤ v ∧ v < qs.getD (j + 1) 0)
                : ℕ) : ℚ) / (m : ℚ))
          else
            qs.map (fun q => ((x.countP (fun v => q ≤ v) : ℕ) : ℚ)
              / (m : ℚ))) x = qs.length - 1 := by
        intro x _
        simp [hseg]
      rw [List.map_congr_left this, List.map_const']
    · have hnf : (ppvNFeatures st).toNat = qs.length := by
        simp only [ppvNFeatures, if_neg hseg]
        omega
      rw [hnf]
      have : ∀ x ∈ X, (List.length ∘ fun x : List ℚ =>
          if st.segments then
            (List.range (qs.length - 1)).map (fun j =>
              ((x.countP (fun v => qs.getD j 0 ≤ v ∧ v < qs.getD (j + 1) 0)
                : ℕ) : ℚ) / (m : ℚ))
          else
            qs.map (fun q => ((x.countP (fun v => q ≤ v) : ℕ) : ℚ)
              / (m : ℚ))) x = qs.length := by
        intro x _
        simp [hseg]
      rw [List.map_congr_left this, List.map_const']

/-- C10: on every fitted PPV sieve (the fit stores one threshold per
configured pair), `sieve` returns a 1-D array of length `X.shape[0]` when
`nfeatures() == 1`, and a 2-D array of shape `(X.shape[0], nfeatures())`
when `nfeatures() > 1`. -/
theorem claim10_sieve_shape :
    ∀ (st : PPVState) (oracle : ℕ → ℚ → ℚ) (X : List (List ℚ)) (m : ℕ),
      (ppvNFeatures st = 1 →
        sieveShape (ppvSieve (ppvFit st oracle) X m) =
          some (Sum.inl X.length)) ∧
      (1 < ppvNFeatures st →
        sieveShape (ppvSieve (ppvFit st oracle) X m) =
          some (Sum.inr (X.length,
            List.replicate X.length (ppvNFeatures st).toNat))) := by
  intro st oracle X m
  have hqlen : ((st.q_c_input.enum).map
      (fun p => if p.2.2 then p.2.1 else oracle p.1 p.2.1)).length =
      st.q_c_input.length := by
    simp [List.enum_length]
  exact ppvSieve_shape (ppvFit st oracle) _ X m rfl hqlen

/-- Witness for C10: the one-feature configuration flattens to a 1-D result
and the two-feature segment configuration yields one row of two entries. -/
theorem claim10_witness :
    sieveShape (ppvSieve (ppvFit stPPV1 oracle0) [[5, 8, 2, 6, 0]] 5) =
      some (Sum.inl 1) ∧
    sieveShape (ppvSieve (ppvFit stPPV3 oracle0) [[5, 8, 2, 6, 0]] 5) =
      some (Sum.inr (1, List.replicate 1 (ppvNFeatures stPPV3).toNat)) :=
  ⟨(claim10_sieve_shape stPPV1 oracle0 [[5, 8, 2, 6, 0]] 5).1 (by decide),
   (claim10_sieve_shape stPPV3 oracle0 [[5, 8, 2, 6, 0]] 5).2 (by decide)⟩

/-- An ASCII digit character is not a closing bracket. -/
theorem isAsciiDig_ne_rb {c : Char} (h : isAsciiDig c = true) : c ≠ ']' := by
  intro hc
  subst hc
  simp [isAsciiDig] at h

/-- ASCII digits belong to the Unicode digit class matched by `\d`. -/
theorem asciiDig_isDig {c : Char} (h : isAsciiDig c = true) :
    isDig c = true := by
  simp only [isAsciiDig, Bool.and_eq_true, decide_eq_true_eq] at h
  have h1 : 48 ≤ c.toNat := h.1
  have h2 : c.toNat ≤ 57 := h.2
  rw [isDig]
  apply List.any_eq_true.mpr
  refine ⟨48, List.mem_cons_self .., ?_⟩
  simp only [decide_eq_true_eq]
  omega

/-- On an ASCII digit the Unicode digit value is the offset from `'0'`
(code point 48), i.e. the block lookup hits the ASCII block. -/
theorem digVal_ascii {c : Char} (h : isAsciiDig c = true) :
    digVal c = c.toNat - 48 := by
  simp only [isAsciiDig, Bool.and_eq_true, decide_eq_true_eq] at h
  have h1 : 48 ≤ c.toNat := h.1
  have h2 : c.toNat ≤ 57 := h.2
  rw [digVal, ndBlocks]
  simp only [digValAux]
  rw [if_pos ⟨h1, by omega⟩]

/-- Two ASCII digit characters with the same numeric value are equal. -/
theorem digVal_inj {a b : Char} (ha : isAsciiDig a = true)
    (hb : isAsciiDig b = true) (h : digVal a = digVal b) : a = b := by
  have hva := digVal_ascii ha
  have hvb := digVal_ascii hb
  simp only [isAsciiDig, Bool.and_eq_true, decide_eq_true_eq] at ha hb
  have h1 : 48 ≤ a.toNat := ha.1
  have h2 : 48 ≤ b.toNat := hb.1
  rw [hva, hvb] at h
  have : a.toNat = b.toNat := by omega
  exact Char.ext (UInt32.ext this)

/-- Membership in the first-occurrence deduplication. -/
theorem mem_firstDistinctAux {α : Type} [DecidableEq α] :
    ∀ (l seen : List α) (c : α),
      c ∈ firstDistinctAux seen l ↔ c ∈ l ∧ c ∉ seen := by
  intro l
  induction l with
  | nil => intro seen c; simp [firstDistinctAux]
  | cons a l ih =>
    intro seen c
    simp only [firstDistinctAux]
    split
    next hmem =>
      rw [ih]
      simp only [List.mem_cons]
      constructor
      · rintro ⟨h1, h2⟩
        exact ⟨Or.inr h1, h2⟩
      · rintro ⟨rfl | h1, h2⟩
        · exact absurd hmem h2
        · exact ⟨h1, h2⟩
    next hmem =>
      simp only [List.mem_cons, ih, List.mem_cons]
      constructor
      · rintro (rfl | ⟨h1, h2⟩)
        · exact ⟨Or.inl rfl, hmem⟩
        · exact ⟨Or.inr h1, fun hs => h2 (Or.inr hs)⟩
      · rintro ⟨rfl | h1, h2⟩
        · exact Or.inl rfl
        · rcases eq_or_ne c a with rfl | hne
          · exact Or.inl rfl
          · exact Or.inr ⟨h1, fun hs => hs.elim hne h2⟩

/-- The first-occurrence deduplication has no duplicates. -/
theorem nodup_firstDistinctAux {α : Type} [DecidableEq α] :
    ∀ (l seen : List α), (firstDistinctAux seen l).Nodup := by
  intro l
  induction l with
  | nil => intro seen; simp [firstDistinctAux]
  | cons a l ih =>
    intro seen
    simp only [firstDistinctAux]
    split
    · exact ih seen
    · refine List.Pairwise.cons ?_ (ih (a :: seen))
      intro b hb
      have := (mem_firstDistinctAux l (a :: seen) b).mp hb
      exact fun he => this.2 (he ▸ List.mem_cons_self a seen)

/-- Every member of a list is bounded by the Python-style maximum. -/
theorem le_maxOfList : ∀ (l : List ℕ) (a : ℕ), a ∈ l → a ≤ maxOfList l := by
  have haux : ∀ (l : List ℕ) (b : ℕ), b ≤ l.foldl Nat.max b ∧
      ∀ a ∈ l, a ≤ l.foldl Nat.max b := by
    intro l
    induction l with
    | nil => intro b; exact ⟨Nat.le_refl b, by simp⟩
    | cons x l ih =>
      intro b
      simp only [List.foldl_cons]
      refine ⟨Nat.le_trans (Nat.le_max_left b x) (ih (Nat.max b x)).1, ?_⟩
      intro a ha
      rcases List.mem_cons.mp ha with rfl | ha
      · exact Nat.le_trans (Nat.le_max_right b a) (ih (Nat.max b a)).1
      · exact (ih (Nat.max b x)).2 a ha
  intro l a ha
  exact (haux l 0).2 a ha

/-- Anatomy of a successful spec-side grammar read: it implies a successful
regex match, its current group and remaining groups hold digits only, and
`split("]")` decomposes the input along the groups. -/
theorem specMode_props :
    ∀ (n : ℕ) (s : PyStr), s.length ≤ n →
      ∀ (mode : Bool) (g : PyStr) (gs : List PyStr),
        specMode mode s = some (g, gs) →
        matchMode mode s = true ∧
        splitRB s = (cond mode (g :: gs.map (fun x => '[' :: x))
          (gs.map (fun x => '[' :: x))) ++ [[]] ∧
        (∀ c ∈ g, isAsciiDig c = true) ∧
        (∀ x ∈ gs, ∀ c ∈ x, isAsciiDig c = true) := by
  intro n
  induction n with
  | zero =>
    intro s hs mode g gs h
    have hnil : s = [] := List.length_eq_zero.mp (Nat.le_zero.mp hs)
    subst hnil
    cases mode
    · rw [specMode.eq_def] at h
      simp only [Option.some.injEq, Prod.mk.injEq] at h
      obtain ⟨rfl, rfl⟩ := h
      exact ⟨rfl, by simp [splitRB], by simp, by simp⟩
    · cases h
  | succ n ih =>
    intro s hs mode g gs h
    cases s with
    | nil =>
      cases mode
      · rw [specMode.eq_def] at h
        simp only [Option.some.injEq, Prod.mk.injEq] at h
        obtain ⟨rfl, rfl⟩ := h
        exact ⟨rfl, by simp [splitRB], by simp, by simp⟩
      · cases h
    | cons c rest =>
      have hrest : rest.length ≤ n := by
        simp only [List.length_cons] at hs
        omega
      cases mode
      · rw [specMode.eq_def] at h
        dsimp only at h
        by_cases hc : c = '['
        · subst hc
          rw [if_pos rfl] at h
          cases rest with
          | nil => cases h
          | cons c2 rest2 =>
            dsimp only at h
            by_cases hd2 : isAsciiDig c2
            · rw [if_pos hd2] at h
              cases hsm : specMode true rest2 with
              | none => rw [hsm] at h; cases h
              | some p =>
                obtain ⟨g', gs'⟩ := p
                rw [hsm] at h
                simp only [Option.map_some', Option.some.injEq,
                  Prod.mk.injEq] at h
                obtain ⟨rfl, rfl⟩ := h
                have hrest2 : rest2.length ≤ n := by
                  simp only [List.length_cons] at hs
                  omega
                obtain ⟨hm, hsp, hdg, hdgs⟩ := ih rest2 hrest2 true g' gs' hsm
                refine ⟨?_, ?_, by simp, ?_⟩
                · simp only [matchMode, asciiDig_isDig hd2, hm, Bool.and_self]
                · have hne2 : c2 ≠ ']' := isAsciiDig_ne_rb hd2
                  have hlb : ('[' : Char) ≠ ']' := by decide
                  rw [cond_true, List.cons_append] at hsp
                  simp only [splitRB, if_neg hlb, if_neg hne2, hsp,
                    cond_false, List.map_cons, List.cons_append]
                · intro x hx
                  rcases List.mem_cons.mp hx with rfl | hx
                  · intro cc hcc
                    rcases List.mem_cons.mp hcc with rfl | hcc
                    · exact hd2
                    · exact hdg cc hcc
                  · exact hdgs x hx
            · rw [if_neg hd2] at h
              cases h
        · rw [if_neg hc] at h
          cases h
      · rw [specMode.eq_def] at h
        dsimp only at h
        by_cases hd : isAsciiDig c
        · rw [if_pos hd] at h
          cases hsm : specMode true rest with
          | none => rw [hsm] at h; cases h
          | some p =>
            obtain ⟨g', gs'⟩ := p
            rw [hsm] at h
            simp only [Option.map_some', Option.some.injEq, Prod.mk.injEq] at h
            obtain ⟨rfl, rfl⟩ := h
            obtain ⟨hm, hsp, hdg, hdgs⟩ := ih rest hrest true g' gs' hsm
            refine ⟨?_, ?_, ?_, hdgs⟩
            · simp only [matchMode, asciiDig_isDig hd, if_pos, hm]
            · have hne : c ≠ ']' := isAsciiDig_ne_rb hd
              rw [cond_true, List.cons_append] at hsp
              simp only [splitRB, if_neg hne, hsp, cond_true,
                List.cons_append]
            · intro x hx
              rcases List.mem_cons.mp hx with rfl | hx
              · exact hd
              · exact hdg x hx
        · rw [if_neg hd] at h
          by_cases hrb : c = ']'
          · subst hrb
            rw [if_pos rfl] at h
            cases hsm : specMode false rest with
            | none => rw [hsm] at h; cases h
            | some p =>
              obtain ⟨g0, gs0⟩ := p
              rw [hsm] at h
              simp only [Option.map_some', Option.some.injEq, Prod.mk.injEq] at h
              obtain ⟨rfl, rfl⟩ := h
              obtain ⟨hm, hsp, _, hdgs⟩ := ih rest hrest false g0 gs0 hsm
              refine ⟨?_, ?_, by simp, hdgs⟩
              · have hdr : isDig ']' = false := by decide
                simp only [matchMode, hdr, hm, if_neg, if_pos,
                  Bool.false_eq_true, reduceIte]
              · rw [cond_false] at hsp
                simp only [splitRB, if_pos, hsp, cond_true, List.cons_append]
          · rw [if_neg hrb] at h
            cases h

/-- A successful spec-side group decomposition agrees with the source-side
parse: the regex matches and `split`-based raw extraction returns exactly
the groups, which hold digits only. -/
theorem specGroups_props {s : PyStr} {gs : List PyStr}
    (h : specGroups s = some gs) :
    fullmatchWord s = true ∧ elsRaw s = gs ∧
    (∀ x ∈ gs, ∀ c ∈ x, isAsciiDig c = true) := by
  cases s with
  | nil => cases h
  | cons c rest =>
    rw [specGroups.eq_def] at h
    dsimp only at h
    by_cases hc : c = '['
    · subst hc
      rw [if_pos rfl] at h
      cases rest with
      | nil => cases h
      | cons c2 rest2 =>
        dsimp only at h
        by_cases hd2 : isAsciiDig c2
        · rw [if_pos hd2] at h
          cases hsm : specMode true rest2 with
          | none => rw [hsm] at h; cases h
          | some p =>
            obtain ⟨g', gs'⟩ := p
            rw [hsm] at h
            simp only [Option.map_some', Option.some.injEq] at h
            subst h
            obtain ⟨hm, hsp, hdg, hdgs⟩ :=
              specMode_props rest2.length rest2 le_rfl true g' gs' hsm
            rw [cond_true, List.cons_append] at hsp
            refine ⟨?_, ?_, ?_⟩
            · simp only [fullmatchWord, asciiDig_isDig hd2, hm, Bool.and_self]
            · have hne2 : c2 ≠ ']' := isAsciiDig_ne_rb hd2
              have hlb : ('[' : Char) ≠ ']' := by decide
              simp only [elsRaw, splitRB, if_neg hlb, if_neg hne2, hsp]
              rw [show ('[' :: c2 :: g') ::
                  (List.map (fun x => '[' :: x) gs' ++ [[]]) =
                  (('[' :: c2 :: g') ::
                    List.map (fun x => '[' :: x) gs') ++ [([] : PyStr)] by
                simp]
              rw [List.dropLast_concat]
              simp [List.map_map, Function.comp_def]
            · intro x hx
              rcases List.mem_cons.mp hx with rfl | hx
              · intro cc hcc
                rcases List.mem_cons.mp hcc with rfl | hcc
                · exact hd2
                · exact hdg cc hcc
              · exact hdgs x hx
        · rw [if_neg hd2] at h
          cases h
    · rw [if_neg hc] at h
      cases h

/-- Running the assignment loop of `SimpleWord.multiply` over distinct
in-range digits (digit `d` targeting position `d - 1`) succeeds and fills
each targeted position with the digit's occurrence count, leaving other
positions untouched. -/
theorem foldlM_pySet_getD (raw : PyStr) :
    ∀ (ds : PyStr) (el : List ℕ),
      (∀ c ∈ ds, isAsciiDig c = true ∧ 1 ≤ digVal c ∧ digVal c ≤ el.length) →
      ds.Nodup →
      ∃ out,
        ds.foldlM (fun e c => pySet e ((digVal c : Int) - 1) (raw.count c)) el
          = some out ∧
        out.length = el.length ∧
        ∀ i, i < el.length →
          out.getD i 0 =
            (match ds.filter (fun c => digVal c == i + 1) with
             | [] => el.getD i 0
             | c :: _ => raw.count c) := by
  intro ds
  induction ds with
  | nil =>
    intro el _ _
    exact ⟨el, rfl, rfl, fun i _ => by simp⟩
  | cons c ds ih =>
    intro el hb hnd
    obtain ⟨hdc, h1c, hlec⟩ := hb c (List.mem_cons_self c ds)
    have hset : pySet el ((digVal c : Int) - 1) (raw.count c) =
        some (el.set (digVal c - 1) (raw.count c)) := by
      have hnn : ¬((digVal c : Int) - 1 < 0) := by omega
      have hto : ((digVal c : Int) - 1).toNat = digVal c - 1 := by omega
      simp only [pySet, if_neg hnn]
      rw [if_pos ⟨by omega, by omega⟩, hto]
    have hlen' : (el.set (digVal c - 1) (raw.count c)).length = el.length :=
      List.length_set ..
    obtain ⟨out, hfold, hlen, hchar⟩ :=
      ih (el.set (digVal c - 1) (raw.count c))
        (fun c2 hc2 => by
          obtain ⟨a, b1, b2⟩ := hb c2 (List.mem_cons_of_mem c hc2)
          exact ⟨a, b1, by omega⟩)
        (List.Nodup.of_cons hnd)
    refine ⟨out, ?_, by omega, ?_⟩
    · simp only [List.foldlM_cons, hset, Option.bind_eq_bind,
        Option.some_bind]
      exact hfold
    · intro i hi
      have hic := hchar i (by omega)
      cases hdv : (digVal c == i + 1) with
      | true =>
        have hdvi : digVal c = i + 1 := by simpa using hdv
        have hfds : ds.filter (fun c2 => digVal c2 == i + 1) = [] := by
          cases hf : ds.filter (fun c2 => digVal c2 == i + 1) with
          | nil => rfl
          | cons c2 t =>
            exfalso
            have hc2f : c2 ∈ ds.filter (fun c2 => digVal c2 == i + 1) := by
              rw [hf]; exact List.mem_cons_self c2 t
            obtain ⟨hc2ds, hc2p⟩ := List.mem_filter.mp hc2f
            have hdc2 : isAsciiDig c2 = true :=
              (hb c2 (List.mem_cons_of_mem c hc2ds)).1
            have : c2 = c := digVal_inj hdc2 hdc
              (((by simpa using hc2p : digVal c2 = i + 1)).trans hdvi.symm)
            subst this
            exact (List.nodup_cons.mp hnd).1 hc2ds
        rw [List.filter_cons_of_pos (by simpa using hdv), hic, hfds]
        have hpos : digVal c - 1 = i := by omega
        rw [hpos]
        rw [List.getD_eq_getElem _ _ (by simpa using hi)]
        exact List.getElem_set_self _
      | false =>
        rw [List.filter_cons_of_neg (by simpa using hdv), hic]
        cases hf : ds.filter (fun c2 => digVal c2 == i + 1) with
        | nil =>
          have hne : digVal c - 1 ≠ i := by
            intro he
            have : digVal c = i + 1 := by omega
            simp [this] at hdv
          rw [List.getD_eq_getElem _ _ (by simpa using hi),
            List.getD_eq_getElem _ _ hi]
          exact List.getElem_set_ne (by simpa using hne) _
        | cons c2 t => rfl

/-- On a group of in-range nonzero digits, the source's set-based letter
construction produces exactly the spec-side letter (digit `d` contributes
its occurrence count at position `d - 1`). -/
theorem mkEl_spec {maxd : ℕ} {raw : PyStr}
    (hdig : ∀ c ∈ raw, isAsciiDig c = true)
    (h1 : ∀ c ∈ raw, 1 ≤ digVal c)
    (hle : ∀ c ∈ raw, digVal c ≤ maxd) :
    mkEl maxd raw = some (specEl maxd raw) := by
  have hmem : ∀ c : Char, c ∈ firstDistinct raw ↔ c ∈ raw := by
    intro c
    rw [firstDistinct, mem_firstDistinctAux]
    simp
  obtain ⟨out, hfold, hlen, hchar⟩ :=
    foldlM_pySet_getD raw (firstDistinct raw) (List.replicate maxd 0)
      (fun c hc => by
        have hcr := (hmem c).mp hc
        exact ⟨hdig c hcr, h1 c hcr, by simpa using hle c hcr⟩)
      (nodup_firstDistinctAux raw [])
  rw [mkEl, hfold]
  congr 1
  have hlen2 : out.length = maxd := by simpa using hlen
  have hlenspec : (specEl maxd raw).length = maxd := by simp [specEl]
  apply List.ext_getElem (by omega)
  intro i hiout hispec
  have hi : i < maxd := by omega
  have hoc := hchar i (by simpa using hi)
  rw [List.getD_eq_getElem _ _ hiout] at hoc
  have hspec : (specEl maxd raw)[i] =
      raw.countP (fun c => decide (digVal c = i + 1)) := by
    simp [specEl]
  rw [hoc, hspec]
  cases hf : (firstDistinct raw).filter (fun c => digVal c == i + 1) with
  | nil =>
    have hcp : raw.countP (fun c => decide (digVal c = i + 1)) = 0 := by
      rw [List.countP_eq_zero]
      intro a ha hpa
      have haf : a ∈ (firstDistinct raw).filter
          (fun c => digVal c == i + 1) :=
        List.mem_filter.mpr ⟨(hmem a).mpr ha, by simpa using hpa⟩
      rw [hf] at haf
      exact absurd haf (List.not_mem_nil a)
    rw [hcp]
    simp
  | cons c t =>
    have hcf := List.mem_filter.mp (hf ▸ List.mem_cons_self c t)
    have hcr : c ∈ raw := (hmem c).mp hcf.1
    have hdvc : digVal c = i + 1 := by simpa using hcf.2
    have hcount : raw.count c = raw.countP (fun a => a == c) := rfl
    dsimp only
    rw [hcount]
    apply List.countP_congr
    intro a ha
    have hda : isAsciiDig a = true := hdig a ha
    by_cases hdva : digVal a = i + 1
    · have : a = c := digVal_inj hda (hdig c hcr) (hdva.trans hdvc.symm)
      subst this
      simp [hdva]
    · have : a ≠ c := fun he => hdva (he ▸ hdvc)
      simp [hdva, this]

/-- Letter construction over a whole group list of in-range nonzero digits
produces exactly the spec-side letters. -/
theorem mapM_mkEl_spec (maxd : ℕ) :
    ∀ (raws : List PyStr),
      (∀ g ∈ raws, ∀ c ∈ g,
        isAsciiDig c = true ∧ 1 ≤ digVal c ∧ digVal c ≤ maxd) →
      raws.mapM (mkEl maxd) = some (raws.map (specEl maxd)) := by
  intro raws
  induction raws with
  | nil => intro _; rfl
  | cons r raws ih =>
    intro hb
    have hr : mkEl maxd r = some (specEl maxd r) :=
      mkEl_spec (fun c hc => (hb r (List.mem_cons_self r raws) c hc).1)
        (fun c hc => (hb r (List.mem_cons_self r raws) c hc).2.1)
        (fun c hc => (hb r (List.mem_cons_self r raws) c hc).2.2)
    have hrest := ih (fun g hg => hb g (List.mem_cons_of_mem r hg))
    simp only [List.mapM_cons, hr, hrest, List.map_cons, Option.bind_eq_bind,
      Option.some_bind, Option.pure_def]

/-- C4 (amended): `SimpleWord` construction raises the format `ValueError`
exactly for strings not matching `(\[\d+\])+` with `\d` the interpreter's
Unicode decimal-digit class — a strict superset of the claim's `[0-9]`, so
strings like `"[\u0661]"` are accepted although the claim's grammar rejects
them; every string matching the ASCII grammar `(\[[0-9]+\])+` whose digits
all lie in `1..9` is accepted and yields one extended letter per bracket
group, digit `d` contributing its occurrence count to dimension `d` (the
digit `0`, although accepted by the grammar, escapes this contract). -/
theorem claim4_grammar_parse :
    (∀ s : PyStr, fullmatchWord s = false →
        simpleWordInit s = .error .valueError) ∧
    (∀ s : PyStr, fullmatchWord s = true →
        simpleWordInit s ≠ .error .valueError) ∧
    (∀ (s : PyStr) (gs : List PyStr), specGroups s = some gs →
        ((gs.flatten).all (fun c => decide (1 ≤ digVal c))) = true →
        simpleWordInit s = .ok (specWord s gs)) := by
  refine ⟨?_, ?_, ?_⟩
  · intro s h
    rw [simpleWordInit, multiplyS, if_neg (by simp [h])]
  · intro s h hcontra
    rw [simpleWordInit, multiplyS, if_pos h] at hcontra
    dsimp only at hcontra
    cases hm : (elsRaw s).mapM (mkEl (strMaxDim s)) with
    | none => rw [hm] at hcontra; cases hcontra
    | some newEls => rw [hm] at hcontra; cases hcontra
  · intro s gs hg hall
    obtain ⟨hfull, hraw, hdigs⟩ := specGroups_props hg
    have hall2 : ∀ c ∈ gs.flatten, 1 ≤ digVal c := by
      intro c hc
      have := List.all_eq_true.mp hall c hc
      simpa using this
    have hb : ∀ g ∈ gs, ∀ c ∈ g, isAsciiDig c = true ∧ 1 ≤ digVal c ∧
        digVal c ≤ maxOfList ((gs.flatten).map digVal) := by
      intro g hgm c hc
      have hcf : c ∈ gs.flatten := List.mem_flatten.mpr ⟨g, hgm, hc⟩
      exact ⟨hdigs g hgm c hc, hall2 c hcf,
        le_maxOfList _ _ (List.mem_map.mpr ⟨c, hcf, rfl⟩)⟩
    have hmax : strMaxDim s = maxOfList ((gs.flatten).map digVal) := by
      rw [strMaxDim, hraw]
    have hmapm : (elsRaw s).mapM (mkEl (strMaxDim s)) =
        some (gs.map (specEl (strMaxDim s))) := by
      rw [hraw]
      exact mapM_mkEl_spec _ gs (hmax ▸ hb)
    rw [simpleWordInit, multiplyS, if_pos hfull]
    dsimp only
    simp only [hmapm]
    rw [specWord]
    have h0 : (if maxOfList ((gs.flatten).map digVal) > 0 then
        maxOfList ((gs.flatten).map digVal) else 0) =
        maxOfList ((gs.flatten).map digVal) := by
      split <;> omega
    simp only [List.nil_append, List.map_nil, hmax, h0, ite_self]

/-- Witness for C4: `"12]"` is rejected with the format error, while
`"[12][122]"` is accepted and parses to the spec-side letters. -/
theorem claim4_witness :
    simpleWordInit strBad = .error .valueError ∧
    simpleWordInit str12_122 ≠ .error .valueError ∧
    simpleWordInit str12_122 =
      .ok (specWord str12_122 [['1', '2'], ['1', '2', '2']]) :=
  ⟨claim4_grammar_parse.1 strBad (by decide),
   claim4_grammar_parse.2.1 str12_122 (by decide),
   claim4_grammar_parse.2.2 str12_122 [['1', '2'], ['1', '2', '2']]
     (by decide) (by decide)⟩

/-- Counterexample for C4 as stated, on both boundaries of the claimed
grammar `(\[[0-9]+\])+`: `"[0]"` matches it yet construction raises
`IndexError` (the assignment targets `el[-1]` of an empty letter); and
`"[\u0661]"` does not match it, yet — `\d` matching every Unicode decimal
digit — construction succeeds with the letter `[1]` instead of raising the
claimed format error. -/
theorem claim4_counterexample :
    specGroups str0 = some [['0']] ∧
    simpleWordInit str0 = .error .indexError ∧
    PyErr.indexError ≠ PyErr.valueError ∧
    specGroups strU = none ∧
    fullmatchWord strU = true ∧
    simpleWordInit strU =
      .ok { name := strU, els := [[1]], maxDim := 1,
            alpha := .scalar 0 } := by decide
